import Mathlib

/-!
Verification of the `SAnimationSet` animation-composition core
(`src/SOUI/include/animation/AnimationSet.h`).

The header under `src/` declares the class, its fields, its property-mask
enumeration and the default constructor argument, but the method bodies live
in a translation unit that is not part of the tree here.  Consequently the
state type, the mask constants and the constructor default are embedded from
the header, while every operation body is modelled from the specification;
each such definition carries a doc comment starting `Modelled from the spec:`.

Times, durations and offsets (C++ `long` milliseconds) are embedded as `ℤ`;
transforms are 2D affine matrices with an alpha channel over `ℤ` so that all
operations are kernel-computable.
-/

/-- Repeat mode of an animation: restart from the beginning or play back
in reverse on each repetition. -/
inductive RepeatMode where
  | restart
  | reverse
deriving DecidableEq, Repr

/-- A transformation accumulator: a 2D affine matrix `((a, b, tx), (c, d, ty))`
together with an alpha value, as described in the spec's data model for the
external `STransformation` collaborator. -/
structure STransformation where
  a : ℤ
  b : ℤ
  c : ℤ
  d : ℤ
  tx : ℤ
  ty : ℤ
  alpha : ℤ
deriving DecidableEq, Repr

/-- The identity transformation: identity matrix, alpha one. -/
def idT : STransformation :=
  { a := 1, b := 0, c := 0, d := 1, tx := 0, ty := 0, alpha := 1 }

/-- Modelled from the spec: composition of transformations.  `compose x y`
is the transformation obtained by applying `x` first and then `y`
(`x` is the inner factor), with alpha combined by multiplication. -/
def compose (x y : STransformation) : STransformation :=
  { a := y.a * x.a + y.b * x.c
    b := y.a * x.b + y.b * x.d
    c := y.c * x.a + y.d * x.c
    d := y.c * x.b + y.d * x.d
    tx := y.a * x.tx + y.b * x.ty + y.tx
    ty := y.c * x.tx + y.d * x.ty + y.ty
    alpha := x.alpha * y.alpha }

/-- Modelled from the spec: the composition step used by the per-frame loop.
Matrices are always concatenated; alpha is multiplied only when the set's
`hasAlpha` cache says some member can affect alpha, and is left untouched
otherwise. -/
def composeM (useAlpha : Bool) (x y : STransformation) : STransformation :=
  { compose x y with alpha := if useAlpha then x.alpha * y.alpha else x.alpha }

/-- Modelled from the spec: the external `Animation` collaborator (spec section 6).
`tf` is the member's instantaneous transform while it is running; `hintVal`
is the result of its own `computeDurationHint`; `hasAlphaF` says whether the
member can affect alpha. -/
structure IAnimation where
  mStartOffset : ℤ
  mDuration : ℤ
  mFillBefore : Bool
  mFillAfter : Bool
  mRepeatMode : RepeatMode
  hintVal : ℤ
  tf : ℤ → STransformation
  hasAlphaF : Bool

/-- Member setter: replace the member's duration. -/
def IAnimation.setDuration (a : IAnimation) (d : ℤ) : IAnimation :=
  { a with mDuration := d }

/-- Member setter: replace the member's fill-before policy. -/
def IAnimation.setFillBefore (a : IAnimation) (b : Bool) : IAnimation :=
  { a with mFillBefore := b }

/-- Member setter: replace the member's fill-after policy. -/
def IAnimation.setFillAfter (a : IAnimation) (b : Bool) : IAnimation :=
  { a with mFillAfter := b }

/-- Member setter: replace the member's repeat mode. -/
def IAnimation.setRepeatMode (a : IAnimation) (m : RepeatMode) : IAnimation :=
  { a with mRepeatMode := m }

/-- Member accessor: the member's current duration. -/
def IAnimation.getDuration (a : IAnimation) : ℤ := a.mDuration

/-- Member operation: scale the member's current duration by `scale`. -/
def IAnimation.scaleCurrentDuration (a : IAnimation) (scale : ℤ) : IAnimation :=
  { a with mDuration := a.mDuration * scale }

/-- Member accessor: the member's own duration hint. -/
def IAnimation.computeDurationHint (a : IAnimation) : ℤ := a.hintVal

/-- Modelled from the spec: the leaf animation's `getTransformation` at time `t`
on its parent's timeline.  Before its start offset it holds its starting pose
when `fillBefore` is set (identity otherwise) and is still active; inside its
active window it yields its running pose and is still active; at or past its
end it holds its terminal pose only when `fillAfter` is set and reports no
longer active. -/
def IAnimation.getTransformation (a : IAnimation) (t : ℤ) : STransformation × Bool :=
  if t < a.mStartOffset then
    ((if a.mFillBefore then a.tf a.mStartOffset else idT), true)
  else if t < a.mStartOffset + a.mDuration then
    (a.tf t, true)
  else
    ((if a.mFillAfter then a.tf (a.mStartOffset + a.mDuration) else idT), false)

/-- Property mask from the header enum: fill-after explicitly set. -/
def PROPERTY_FILL_AFTER_MASK : ℕ := 0x1

/-- Property mask from the header enum: fill-before explicitly set. -/
def PROPERTY_FILL_BEFORE_MASK : ℕ := 0x2

/-- Property mask from the header enum: repeat mode explicitly set. -/
def PROPERTY_REPEAT_MODE_MASK : ℕ := 0x4

/-- Property mask from the header enum: share-interpolator set at construction. -/
def PROPERTY_SHARE_INTERPOLATOR_MASK : ℕ := 0x10

/-- Property mask from the header enum: duration explicitly set. -/
def PROPERTY_DURATION_MASK : ℕ := 0x20

/-- Bit test on the flag word: true when some bit of `mask` is set in `flags`. -/
def hasFlag (flags mask : ℕ) : Bool := flags &&& mask != 0

/-- State of `SAnimationSet`.  `mFlags`, `mDirty`, `mHasAlpha`, `mAnimations`,
`mChildStarted` and `mLastEnd` are the fields declared in the header; the
remaining fields (`mDuration` doubling as the cached set duration, the fill
and repeat values and the set's own start offset) are the inherited
`SAnimation` base-class state the spec's operations read and write. -/
structure SAnimationSet where
  mFlags : ℕ
  mDirty : Bool
  mHasAlpha : Bool
  mAnimations : List IAnimation
  mChildStarted : Bool
  mLastEnd : ℤ
  mDuration : ℤ
  mFillBefore : Bool
  mFillAfter : Bool
  mRepeatMode : RepeatMode
  mStartOffset : ℤ

/-- Constructor.  The header declares `SAnimationSet(bool shareInterpolator = true)`;
the body is modelled from the spec: record the share-interpolator choice in the
flag word and start with an empty member list and clean caches. -/
def SAnimationSet.create (shareInterpolator : Bool) : SAnimationSet :=
  { mFlags := if shareInterpolator then PROPERTY_SHARE_INTERPOLATOR_MASK else 0
    mDirty := false
    mHasAlpha := false
    mAnimations := []
    mChildStarted := false
    mLastEnd := 0
    mDuration := 0
    mFillBefore := true
    mFillAfter := false
    mRepeatMode := RepeatMode.restart
    mStartOffset := 0 }

/-- A set constructed without passing an explicit `shareInterpolator` value:
the header's declared default argument is `true`. -/
def SAnimationSet.createDefault : SAnimationSet := SAnimationSet.create true

/-- Whether this set shares its interpolator with its members: the
share-interpolator bit of the flag word. -/
def SAnimationSet.shareInterpolator (s : SAnimationSet) : Bool :=
  hasFlag s.mFlags PROPERTY_SHARE_INTERPOLATOR_MASK

/-- Modelled from the spec (section 4.1): `setDuration` stores the value on the
set, records the explicit-duration bit, and applies the value to every current
member immediately. -/
def SAnimationSet.setDuration (s : SAnimationSet) (d : ℤ) : SAnimationSet :=
  { s with mFlags := s.mFlags ||| PROPERTY_DURATION_MASK
           mDuration := d
           mAnimations := s.mAnimations.map (fun a => a.setDuration d) }

/-- Modelled from the spec (section 4.1): `setFillBefore` stores the value,
records the explicit bit, and pushes the value to every current member. -/
def SAnimationSet.setFillBefore (s : SAnimationSet) (b : Bool) : SAnimationSet :=
  { s with mFlags := s.mFlags ||| PROPERTY_FILL_BEFORE_MASK
           mFillBefore := b
           mAnimations := s.mAnimations.map (fun a => a.setFillBefore b) }

/-- Modelled from the spec (section 4.1): `setFillAfter` stores the value,
records the explicit bit, and pushes the value to every current member. -/
def SAnimationSet.setFillAfter (s : SAnimationSet) (b : Bool) : SAnimationSet :=
  { s with mFlags := s.mFlags ||| PROPERTY_FILL_AFTER_MASK
           mFillAfter := b
           mAnimations := s.mAnimations.map (fun a => a.setFillAfter b) }

/-- Modelled from the spec (section 4.1): `setRepeatMode` stores the value,
records the explicit bit, and pushes the value to every current member. -/
def SAnimationSet.setRepeatMode (s : SAnimationSet) (m : RepeatMode) : SAnimationSet :=
  { s with mFlags := s.mFlags ||| PROPERTY_REPEAT_MODE_MASK
           mRepeatMode := m
           mAnimations := s.mAnimations.map (fun a => a.setRepeatMode m) }

/-- Modelled from the spec (section 4.1): `startOffset` applies to the set
itself and is never pushed to members. -/
def SAnimationSet.setStartOffset (s : SAnimationSet) (o : ℤ) : SAnimationSet :=
  { s with mStartOffset := o }

/-- Modelled from the spec (section 3 invariant): every property already
explicitly set on the set is applied to a newly added member immediately, so
that all members stay consistent regardless of add order. -/
def SAnimationSet.pushExplicit (s : SAnimationSet) (a : IAnimation) : IAnimation :=
  let a1 := if hasFlag s.mFlags PROPERTY_DURATION_MASK then a.setDuration s.mDuration else a
  let a2 := if hasFlag s.mFlags PROPERTY_FILL_BEFORE_MASK then a1.setFillBefore s.mFillBefore else a1
  let a3 := if hasFlag s.mFlags PROPERTY_FILL_AFTER_MASK then a2.setFillAfter s.mFillAfter else a2
  if hasFlag s.mFlags PROPERTY_REPEAT_MODE_MASK then a3.setRepeatMode s.mRepeatMode else a3

/-- Modelled from the spec (section 4.2): `addAnimation` appends the member,
updates the cached duration, refreshes the alpha cache, and marks the set
dirty.  When the duration was not explicitly set, the cache is the running
maximum of `startOffset + duration` over members, seeded by the first member;
when the duration was explicitly set, the explicit value is the cache and is
what gets pushed to the new member (sections 3 and 4.1), so the cache is left
at that explicit value. -/
def SAnimationSet.addAnimation (s : SAnimationSet) (a : IAnimation) : SAnimationSet :=
  let newDur :=
    if hasFlag s.mFlags PROPERTY_DURATION_MASK then s.mDuration
    else if s.mAnimations.isEmpty then a.mStartOffset + a.getDuration
    else max s.mDuration (a.mStartOffset + a.getDuration)
  { s with mAnimations := s.mAnimations ++ [s.pushExplicit a]
           mDuration := newDur
           mHasAlpha := s.mHasAlpha || a.hasAlphaF
           mDirty := true }

/-- Modelled from the spec (section 7): the C++ entry point takes a pointer;
a null/absent member is rejected as a no-op and never stored. -/
def SAnimationSet.addAnimationOpt (s : SAnimationSet) (a : Option IAnimation) : SAnimationSet :=
  match a with
  | none => s
  | some a => s.addAnimation a

/-- Modelled from the spec (section 4.2): `getDuration` returns the cached
duration in O(1); declared `const` in the header. -/
def SAnimationSet.getDuration (s : SAnimationSet) : ℤ := s.mDuration

/-- Modelled from the spec (section 4.2): `computeDurationHint` recomputes, on
every call, the maximum over members of each member's own hint; declared
`const` in the header. -/
def SAnimationSet.computeDurationHint (s : SAnimationSet) : ℤ :=
  s.mAnimations.foldl (fun acc a => max acc a.computeDurationHint) 0

/-- Modelled from the spec (section 4.3): one step of the per-frame loop.  A
member whose effective start (relative to the set's resolved start `s0`) has
not been reached contributes nothing but keeps the set pending; otherwise the
member's own `getTransformation` is consulted and its partial transform is
concatenated onto the accumulator (alpha only when `hasA`), and the set stays
active as long as any consulted member does. -/
def stepMember (s0 : ℤ) (hasA : Bool) (t : ℤ) (acc : STransformation × Bool)
    (a : IAnimation) : STransformation × Bool :=
  if t - s0 < a.mStartOffset then (acc.1, true)
  else
    let r := a.getTransformation (t - s0)
    (composeM hasA acc.1 r.1, acc.2 || r.2)

/-- Modelled from the spec (section 4.3): the per-frame composition walks the
members in insertion order, starting from the identity transform, composing
each active member's partial transform in that same order (first-added member
innermost) and reporting whether the set is still active. -/
def SAnimationSet.getTransformation (s : SAnimationSet) (t : ℤ) : STransformation × Bool :=
  s.mAnimations.foldl (stepMember s.mStartOffset s.mHasAlpha t) (idT, false)

/-- Modelled from the spec (section 4.5): `scaleCurrentDuration` forwards the
same scale factor to every member and multiplies the set's own cached
duration by it directly, without a rescan. -/
def SAnimationSet.scaleCurrentDuration (s : SAnimationSet) (scale : ℤ) : SAnimationSet :=
  { s with mDuration := s.mDuration * scale
           mAnimations := s.mAnimations.map (fun a => a.scaleCurrentDuration scale) }

/-- An observer call on the set: the value returned together with the state of
the set after the call.  `getDuration` is `const` in the header and modelled
effect-free. -/
def SAnimationSet.getDurationCall (s : SAnimationSet) : ℤ × SAnimationSet :=
  (s.getDuration, s)

/-- An observer call on the set: the value returned together with the state of
the set after the call.  `computeDurationHint` is `const` in the header and
modelled effect-free. -/
def SAnimationSet.computeDurationHintCall (s : SAnimationSet) : ℤ × SAnimationSet :=
  (s.computeDurationHint, s)

/-- One mutating call of the public interleaving the push-down invariant
quantifies over: a property setter or a member addition. -/
inductive Cmd where
  | setDur (d : ℤ)
  | setFillB (b : Bool)
  | setFillA (b : Bool)
  | setRep (m : RepeatMode)
  | add (a : IAnimation)

/-- Apply one command to the set. -/
def SAnimationSet.applyCmd (s : SAnimationSet) : Cmd → SAnimationSet
  | Cmd.setDur d => s.setDuration d
  | Cmd.setFillB b => s.setFillBefore b
  | Cmd.setFillA b => s.setFillAfter b
  | Cmd.setRep m => s.setRepeatMode m
  | Cmd.add a => s.addAnimation a

/-- Run a sequence of commands left to right. -/
def SAnimationSet.run (s : SAnimationSet) (cs : List Cmd) : SAnimationSet :=
  cs.foldl SAnimationSet.applyCmd s

/-- Add a whole list of members in order. -/
def SAnimationSet.addAll (s : SAnimationSet) (as : List IAnimation) : SAnimationSet :=
  as.foldl SAnimationSet.addAnimation s

/-- The last value passed to `setDuration` in a command sequence, if any. -/
def lastSetDur (cs : List Cmd) : Option ℤ :=
  cs.foldl (fun acc c => match c with | Cmd.setDur d => some d | _ => acc) none

/-- The last value passed to `setFillBefore` in a command sequence, if any. -/
def lastSetFillB (cs : List Cmd) : Option Bool :=
  cs.foldl (fun acc c => match c with | Cmd.setFillB b => some b | _ => acc) none

/-- The last value passed to `setFillAfter` in a command sequence, if any. -/
def lastSetFillA (cs : List Cmd) : Option Bool :=
  cs.foldl (fun acc c => match c with | Cmd.setFillA b => some b | _ => acc) none

/-- The last value passed to `setRepeatMode` in a command sequence, if any. -/
def lastSetRep (cs : List Cmd) : Option RepeatMode :=
  cs.foldl (fun acc c => match c with | Cmd.setRep m => some m | _ => acc) none

/-- Maximum of a list of integers (zero for the empty list, the fold of `max`
over the tail seeded by the head otherwise). -/
def listMax : List ℤ → ℤ
  | [] => 0
  | x :: xs => xs.foldl max x

/-- The leaf contract tying a member's alpha capability flag to its poses: a
member that declares it cannot affect alpha always produces alpha one. -/
def alphaOK (a : IAnimation) : Prop :=
  a.hasAlphaF = false → ∀ t : ℤ, (a.tf t).alpha = 1

lemma lor_and_of_disjoint (f m' m : ℕ) (h : m' &&& m = 0) :
    (f ||| m') &&& m = f &&& m := by
  apply Nat.eq_of_testBit_eq
  intro i
  have h2 : (m' &&& m).testBit i = false := by rw [h]; exact Nat.zero_testBit i
  rw [Nat.testBit_and] at h2
  simp only [Nat.testBit_and, Nat.testBit_lor]
  cases hm : m.testBit i
  · simp [hm]
  · simp [hm] at h2
    simp [hm, h2]

lemma and_lor_self (f m : ℕ) : (f ||| m) &&& m = m := by
  apply Nat.eq_of_testBit_eq
  intro i
  simp only [Nat.testBit_and, Nat.testBit_lor]
  cases hm : m.testBit i <;> simp [hm]

lemma hasFlag_lor_self (f m : ℕ) (h : m ≠ 0) : hasFlag (f ||| m) m = true := by
  simp [hasFlag, and_lor_self, h]

lemma hasFlag_lor_other (f m' m : ℕ) (h : m' &&& m = 0) :
    hasFlag (f ||| m') m = hasFlag f m := by
  unfold hasFlag
  rw [lor_and_of_disjoint f m' m h]

lemma applyCmd_share (s : SAnimationSet) (c : Cmd) :
    (s.applyCmd c).shareInterpolator = s.shareInterpolator := by
  cases c <;>
    simp only [SAnimationSet.applyCmd, SAnimationSet.setDuration, SAnimationSet.setFillBefore,
      SAnimationSet.setFillAfter, SAnimationSet.setRepeatMode, SAnimationSet.addAnimation,
      SAnimationSet.shareInterpolator, PROPERTY_SHARE_INTERPOLATOR_MASK,
      PROPERTY_DURATION_MASK, PROPERTY_FILL_BEFORE_MASK, PROPERTY_FILL_AFTER_MASK,
      PROPERTY_REPEAT_MODE_MASK] <;>
    first
      | rfl
      | exact hasFlag_lor_other _ _ _ (by decide)

lemma run_share (cs : List Cmd) :
    ∀ s : SAnimationSet, (s.run cs).shareInterpolator = s.shareInterpolator := by
  induction cs with
  | nil => intro s; rfl
  | cons c cs ih =>
    intro s
    show ((s.applyCmd c).run cs).shareInterpolator = _
    rw [ih, applyCmd_share]

/-- C5 counterexample: the header declares the constructor default argument as
`true`, so a set constructed without an explicit `shareInterpolator` value has
`shareInterpolator = true`, not `false` as claimed. -/
theorem createDefault_shareInterpolator_true :
    SAnimationSet.createDefault.shareInterpolator = true := by decide

/-- C5 (amended): a set constructed without an explicit `shareInterpolator`
value has `shareInterpolator = true`; the setting is fixed at construction —
no later setter or member addition changes it — and it reflects exactly the
constructor argument. -/
theorem shareInterpolator_fixed_at_construction :
    ∀ (b : Bool) (cs : List Cmd),
      ((SAnimationSet.create b).run cs).shareInterpolator = b ∧
      (SAnimationSet.createDefault.run cs).shareInterpolator = true := by
  intro b cs
  constructor
  · rw [run_share]
    cases b <;> decide
  · rw [run_share]
    decide

/-- C7: `scaleCurrentDuration` is multiplicative — scaling by `s1` and then by
`s2` produces exactly the state (cached duration and forwarded member
durations alike) of a single call scaling by `s1 * s2`. -/
theorem scaleCurrentDuration_mul (s : SAnimationSet) (s1 s2 : ℤ) :
    (s.scaleCurrentDuration s1).scaleCurrentDuration s2
      = s.scaleCurrentDuration (s1 * s2) := by
  have hfun : ((fun a : IAnimation => a.scaleCurrentDuration s2) ∘
      (fun a : IAnimation => a.scaleCurrentDuration s1))
        = (fun a : IAnimation => a.scaleCurrentDuration (s1 * s2)) := by
    funext a
    simp [IAnimation.scaleCurrentDuration, mul_assoc]
  simp only [SAnimationSet.scaleCurrentDuration, List.map_map, hfun, mul_assoc]

/-- C9: adding an absent (null) member is a no-op — the whole state, in
particular the member sequence and the cached duration, is unchanged and no
entry is stored — while adding a present member stores exactly one entry. -/
theorem addAnimationOpt_none_noop (s : SAnimationSet) (a : IAnimation) :
    s.addAnimationOpt none = s ∧
      (s.addAnimationOpt none).mAnimations = s.mAnimations ∧
      (s.addAnimationOpt none).getDuration = s.getDuration ∧
      (s.addAnimationOpt (some a)).mAnimations.length = s.mAnimations.length + 1 := by
  refine ⟨rfl, rfl, rfl, ?_⟩
  simp [SAnimationSet.addAnimationOpt, SAnimationSet.addAnimation]

/-- C10: `getDuration` and `computeDurationHint` are effect-free observers —
the state after either call is the input state, field by field (member
sequence, flags, cached duration, dirty, hasAlpha, started/lastEnd
bookkeeping, fill and repeat values, start offset). -/
theorem observers_effect_free (s : SAnimationSet) :
    s.getDurationCall.2.mAnimations = s.mAnimations ∧
      s.getDurationCall.2.mFlags = s.mFlags ∧
      s.getDurationCall.2.mDuration = s.mDuration ∧
      s.getDurationCall.2.mDirty = s.mDirty ∧
      s.getDurationCall.2.mHasAlpha = s.mHasAlpha ∧
      s.getDurationCall.2.mChildStarted = s.mChildStarted ∧
      s.getDurationCall.2.mLastEnd = s.mLastEnd ∧
      s.getDurationCall.2 = s ∧
      s.computeDurationHintCall.2.mAnimations = s.mAnimations ∧
      s.computeDurationHintCall.2.mFlags = s.mFlags ∧
      s.computeDurationHintCall.2.mDuration = s.mDuration ∧
      s.computeDurationHintCall.2.mDirty = s.mDirty ∧
      s.computeDurationHintCall.2.mHasAlpha = s.mHasAlpha ∧
      s.computeDurationHintCall.2.mChildStarted = s.mChildStarted ∧
      s.computeDurationHintCall.2.mLastEnd = s.mLastEnd ∧
      s.computeDurationHintCall.2 = s :=
  ⟨rfl, rfl, rfl, rfl, rfl, rfl, rfl, rfl, rfl, rfl, rfl, rfl, rfl, rfl, rfl, rfl⟩

lemma listMax_cons_append (y : ℤ) (ys : List ℤ) (x : ℤ) :
    listMax ((y :: ys) ++ [x]) = max (listMax (y :: ys)) x := by
  simp [listMax, List.foldl_append]

lemma pushExplicit_of_flags16 (s : SAnimationSet) (h : s.mFlags = 16) (a : IAnimation) :
    s.pushExplicit a = a := by
  have h1 : hasFlag (16 : ℕ) PROPERTY_DURATION_MASK = false := by decide
  have h2 : hasFlag (16 : ℕ) PROPERTY_FILL_BEFORE_MASK = false := by decide
  have h3 : hasFlag (16 : ℕ) PROPERTY_FILL_AFTER_MASK = false := by decide
  have h4 : hasFlag (16 : ℕ) PROPERTY_REPEAT_MODE_MASK = false := by decide
  simp [SAnimationSet.pushExplicit, h, h1, h2, h3, h4]

lemma addAll_invariant (as : List IAnimation) :
    ∀ s : SAnimationSet, s.mFlags = 16 →
      (s.mAnimations ≠ [] →
        s.mDuration = listMax (s.mAnimations.map (fun a => a.mStartOffset + a.getDuration))) →
      (s.addAll as).mFlags = 16 ∧
        (s.addAll as).mAnimations = s.mAnimations ++ as ∧
        ((s.addAll as).mAnimations ≠ [] →
          (s.addAll as).mDuration
            = listMax ((s.addAll as).mAnimations.map (fun a => a.mStartOffset + a.getDuration))) := by
  induction as with
  | nil =>
    intro s hf hd
    exact ⟨hf, by simp [SAnimationSet.addAll], hd⟩
  | cons a as ih =>
    intro s hf hd
    have hstep : s.addAll (a :: as) = (s.addAnimation a).addAll as := rfl
    have hfl : (s.addAnimation a).mFlags = 16 := hf
    have hdm : hasFlag (16 : ℕ) PROPERTY_DURATION_MASK = false := by decide
    have hmem : (s.addAnimation a).mAnimations = s.mAnimations ++ [a] := by
      simp [SAnimationSet.addAnimation, pushExplicit_of_flags16 s hf a]
    have hdur : (s.addAnimation a).mAnimations ≠ [] →
        (s.addAnimation a).mDuration
          = listMax ((s.addAnimation a).mAnimations.map (fun x => x.mStartOffset + x.getDuration)) := by
      intro _
      rw [hmem]
      cases hcase : s.mAnimations with
      | nil =>
        simp [SAnimationSet.addAnimation, hf, hdm, hcase, listMax]
      | cons y ys =>
        have hne : s.mAnimations ≠ [] := by rw [hcase]; exact List.cons_ne_nil _ _
        have hd2 := hd hne
        rw [hcase] at hd2
        simp only [SAnimationSet.addAnimation, hf, hdm, hcase, Bool.false_eq_true, if_false,
          List.isEmpty_cons, List.map_append, List.map_cons, List.map_nil]
        rw [listMax_cons_append]
        simp only [List.map_cons] at hd2
        rw [hd2]
    obtain ⟨c1, c2, c3⟩ := ih (s.addAnimation a) hfl hdur
    refine ⟨by rw [hstep]; exact c1, ?_, by rw [hstep]; exact c3⟩
    rw [hstep, c2, hmem]
    simp

/-- C1: for a set built by adding a non-empty sequence of members to a freshly
constructed set, `getDuration` equals the maximum over the members of
`startOffset + duration`, and what it returns is exactly the cached value
`mDuration` maintained incrementally by `addAnimation`. -/
theorem getDuration_eq_max (as : List IAnimation) (h : as ≠ []) :
    (SAnimationSet.createDefault.addAll as).getDuration
      = listMax ((SAnimationSet.createDefault.addAll as).mAnimations.map
          (fun a => a.mStartOffset + a.getDuration)) ∧
    (SAnimationSet.createDefault.addAll as).getDuration
      = (SAnimationSet.createDefault.addAll as).mDuration := by
  obtain ⟨c1, c2, c3⟩ := addAll_invariant as SAnimationSet.createDefault rfl
    (fun hc => absurd rfl hc)
  refine ⟨c3 ?_, rfl⟩
  rw [c2]
  have hnil : SAnimationSet.createDefault.mAnimations ++ as = as := rfl
  rw [hnil]
  exact h

/-- A concrete member: start offset 0, duration 300 (the spec's end-to-end
scenario member X); its pose is a unit translation in x. -/
def animX : IAnimation :=
  { mStartOffset := 0, mDuration := 300, mFillBefore := true, mFillAfter := false
    mRepeatMode := RepeatMode.restart, hintVal := 300
    tf := fun _ => { a := 1, b := 0, c := 0, d := 1, tx := 1, ty := 0, alpha := 1 }
    hasAlphaF := false }

/-- A concrete member: start offset 100, duration 500 (the spec's end-to-end
scenario member Y); its pose scales x by two. -/
def animY : IAnimation :=
  { mStartOffset := 100, mDuration := 500, mFillBefore := true, mFillAfter := false
    mRepeatMode := RepeatMode.restart, hintVal := 500
    tf := fun _ => { a := 2, b := 0, c := 0, d := 1, tx := 0, ty := 0, alpha := 1 }
    hasAlphaF := false }

/-- C1 witness: the spec's end-to-end scenario — members (offset 0, duration
300) and (offset 100, duration 500) give a cached duration of 600. -/
theorem getDuration_eq_max_witness :
    ([animX, animY] ≠ ([] : List IAnimation)) ∧
      (SAnimationSet.createDefault.addAll [animX, animY]).getDuration
        = listMax ((SAnimationSet.createDefault.addAll [animX, animY]).mAnimations.map
            (fun a => a.mStartOffset + a.getDuration)) ∧
      (SAnimationSet.createDefault.addAll [animX, animY]).getDuration = 600 :=
  ⟨List.cons_ne_nil _ _,
    (getDuration_eq_max [animX, animY] (List.cons_ne_nil _ _)).1,
    by decide⟩

lemma foldl_max_ge_init (l : List ℤ) : ∀ z : ℤ, z ≤ l.foldl max z := by
  induction l with
  | nil => intro z; exact le_refl z
  | cons x xs ih => intro z; exact le_trans (le_max_left z x) (ih (max z x))

lemma foldl_max_ge_mem (l : List ℤ) : ∀ (z : ℤ) (x : ℤ), x ∈ l → x ≤ l.foldl max z := by
  induction l with
  | nil => intro z x hx; exact absurd hx (List.not_mem_nil x)
  | cons y ys ih =>
    intro z x hx
    rcases List.mem_cons.mp hx with h | h
    · subst h
      exact le_trans (le_max_right z x) (foldl_max_ge_init ys (max z x))
    · exact ih (max z y) x h

lemma foldl_max_mem (l : List ℤ) : ∀ z : ℤ, l.foldl max z = z ∨ l.foldl max z ∈ l := by
  induction l with
  | nil => intro z; exact Or.inl rfl
  | cons x xs ih =>
    intro z
    rcases ih (max z x) with h | h
    · rcases max_choice z x with hm | hm
      · exact Or.inl (by rw [List.foldl_cons, h, hm])
      · exact Or.inr (by rw [List.foldl_cons, h, hm]; exact List.mem_cons_self x xs)
    · exact Or.inr (List.mem_cons_of_mem x h)

/-- C6: `computeDurationHint` is, on every call, the maximum over the current
members of each member's own hint — the result is one of the member hints and
an upper bound for all of them.  Because it is a pure function of the current
member states (no cache field is read or written — see the effect-free
observer theorem), a change in a member's state between two calls is
reflected in the second call's result. -/
theorem computeDurationHint_max (s : SAnimationSet) (h1 : s.mAnimations ≠ [])
    (h2 : ∀ a ∈ s.mAnimations, 0 ≤ a.hintVal) :
    s.computeDurationHint ∈ s.mAnimations.map (fun a => a.computeDurationHint) ∧
      ∀ a ∈ s.mAnimations, a.computeDurationHint ≤ s.computeDurationHint := by
  have hrep : s.computeDurationHint
      = (s.mAnimations.map (fun a => a.computeDurationHint)).foldl max 0 := by
    rw [SAnimationSet.computeDurationHint, List.foldl_map]
  constructor
  · rcases foldl_max_mem (s.mAnimations.map (fun a => a.computeDurationHint)) 0 with h | h
    · cases hc : s.mAnimations with
      | nil => exact absurd hc h1
      | cons y ys =>
        have hy : y.computeDurationHint
            ≤ (s.mAnimations.map (fun a => a.computeDurationHint)).foldl max 0 := by
          apply foldl_max_ge_mem
          rw [hc]
          exact List.mem_map_of_mem _ (List.mem_cons_self y ys)
        have hy0 : 0 ≤ y.computeDurationHint := h2 y (by rw [hc]; exact List.mem_cons_self y ys)
        have : y.computeDurationHint = s.computeDurationHint := by
          rw [hrep] at *
          omega
        rw [← this]
        exact List.mem_map_of_mem _ (List.mem_cons_self y ys)
    · rw [hrep]
      exact h
  · intro a ha
    rw [hrep]
    exact foldl_max_ge_mem _ 0 _ (List.mem_map_of_mem _ ha)

/-- C6 witness: for the two-member scenario set the hint is the larger member
hint, 500. -/
theorem computeDurationHint_max_witness :
    ((SAnimationSet.createDefault.addAll [animX, animY]).mAnimations ≠ []) ∧
      (∀ a ∈ (SAnimationSet.createDefault.addAll [animX, animY]).mAnimations, 0 ≤ a.hintVal) ∧
      ((SAnimationSet.createDefault.addAll [animX, animY]).computeDurationHint
          ∈ (SAnimationSet.createDefault.addAll [animX, animY]).mAnimations.map
              (fun a => a.computeDurationHint) ∧
        ∀ a ∈ (SAnimationSet.createDefault.addAll [animX, animY]).mAnimations,
          a.computeDurationHint ≤ (SAnimationSet.createDefault.addAll [animX, animY]).computeDurationHint) := by
  have hm : (SAnimationSet.createDefault.addAll [animX, animY]).mAnimations
      = [animX, animY] := rfl
  have h1 : (SAnimationSet.createDefault.addAll [animX, animY]).mAnimations ≠ [] := by
    rw [hm]; exact List.cons_ne_nil _ _
  have h2 : ∀ a ∈ (SAnimationSet.createDefault.addAll [animX, animY]).mAnimations,
      0 ≤ a.hintVal := by
    rw [hm]
    intro a ha
    rcases List.mem_cons.mp ha with h | h
    · subst h; decide
    · rcases List.mem_cons.mp h with h | h
      · subst h; decide
      · exact absurd h (List.not_mem_nil a)
  exact ⟨h1, h2, computeDurationHint_max _ h1 h2⟩

lemma pushExplicit_mDuration (s : SAnimationSet) (a : IAnimation)
    (h : hasFlag s.mFlags PROPERTY_DURATION_MASK = true) :
    (s.pushExplicit a).mDuration = s.mDuration := by
  simp only [SAnimationSet.pushExplicit, h, if_true]
  split_ifs <;> rfl

lemma pushExplicit_mFillBefore (s : SAnimationSet) (a : IAnimation)
    (h : hasFlag s.mFlags PROPERTY_FILL_BEFORE_MASK = true) :
    (s.pushExplicit a).mFillBefore = s.mFillBefore := by
  simp only [SAnimationSet.pushExplicit, h, if_true]
  split_ifs <;> rfl

lemma pushExplicit_mFillAfter (s : SAnimationSet) (a : IAnimation)
    (h : hasFlag s.mFlags PROPERTY_FILL_AFTER_MASK = true) :
    (s.pushExplicit a).mFillAfter = s.mFillAfter := by
  simp only [SAnimationSet.pushExplicit, h, if_true]
  split_ifs <;> rfl

lemma pushExplicit_mRepeatMode (s : SAnimationSet) (a : IAnimation)
    (h : hasFlag s.mFlags PROPERTY_REPEAT_MODE_MASK = true) :
    (s.pushExplicit a).mRepeatMode = s.mRepeatMode := by
  simp only [SAnimationSet.pushExplicit, h, if_true]
  split_ifs <;> rfl

lemma run_dur (cs : List Cmd) :
    ∀ (s : SAnimationSet) (o : Option ℤ),
      (∀ d, o = some d →
        hasFlag s.mFlags PROPERTY_DURATION_MASK = true ∧ s.mDuration = d ∧
          ∀ a ∈ s.mAnimations, a.mDuration = d) →
      ∀ d, cs.foldl (fun acc c => match c with | Cmd.setDur x => some x | _ => acc) o = some d →
        hasFlag (s.run cs).mFlags PROPERTY_DURATION_MASK = true ∧
          (s.run cs).mDuration = d ∧
          ∀ a ∈ (s.run cs).mAnimations, a.mDuration = d := by
  induction cs with
  | nil =>
    intro s o hinv d hd
    exact hinv d hd
  | cons c cs ih =>
    intro s o hinv d hd
    refine ih (s.applyCmd c)
      ((fun acc c => match c with | Cmd.setDur x => some x | _ => acc) o c) ?_ d hd
    cases c with
    | setDur x =>
      intro d' hd'
      have hd2 : some x = some d' := hd'
      injection hd2 with he
      subst he
      refine ⟨?_, rfl, ?_⟩
      · show hasFlag (s.mFlags ||| PROPERTY_DURATION_MASK) PROPERTY_DURATION_MASK = true
        exact hasFlag_lor_self _ _ (by decide)
      · intro a ha
        obtain ⟨b, hb, rfl⟩ := List.mem_map.mp ha
        rfl
    | setFillB v =>
      intro d' hd'
      obtain ⟨hf, hdur, hall⟩ := hinv d' hd'
      refine ⟨?_, hdur, ?_⟩
      · show hasFlag (s.mFlags ||| PROPERTY_FILL_BEFORE_MASK) PROPERTY_DURATION_MASK = true
        rw [hasFlag_lor_other _ _ _ (by decide)]
        exact hf
      · intro a ha
        obtain ⟨b, hb, rfl⟩ := List.mem_map.mp ha
        show b.mDuration = d'
        exact hall b hb
    | setFillA v =>
      intro d' hd'
      obtain ⟨hf, hdur, hall⟩ := hinv d' hd'
      refine ⟨?_, hdur, ?_⟩
      · show hasFlag (s.mFlags ||| PROPERTY_FILL_AFTER_MASK) PROPERTY_DURATION_MASK = true
        rw [hasFlag_lor_other _ _ _ (by decide)]
        exact hf
      · intro a ha
        obtain ⟨b, hb, rfl⟩ := List.mem_map.mp ha
        show b.mDuration = d'
        exact hall b hb
    | setRep v =>
      intro d' hd'
      obtain ⟨hf, hdur, hall⟩ := hinv d' hd'
      refine ⟨?_, hdur, ?_⟩
      · show hasFlag (s.mFlags ||| PROPERTY_REPEAT_MODE_MASK) PROPERTY_DURATION_MASK = true
        rw [hasFlag_lor_other _ _ _ (by decide)]
        exact hf
      · intro a ha
        obtain ⟨b, hb, rfl⟩ := List.mem_map.mp ha
        show b.mDuration = d'
        exact hall b hb
    | add x =>
      intro d' hd'
      obtain ⟨hf, hdur, hall⟩ := hinv d' hd'
      refine ⟨hf, ?_, ?_⟩
      · show (if hasFlag s.mFlags PROPERTY_DURATION_MASK then s.mDuration
            else if s.mAnimations.isEmpty then x.mStartOffset + x.getDuration
            else max s.mDuration (x.mStartOffset + x.getDuration)) = d'
        rw [hf]
        simpa using hdur
      · intro a ha
        have ha2 : a ∈ s.mAnimations ++ [s.pushExplicit x] := ha
        rcases List.mem_append.mp ha2 with h | h
        · exact hall a h
        · have hx : a = s.pushExplicit x := by simpa using h
          rw [hx, pushExplicit_mDuration s x hf]
          exact hdur

lemma run_fillB (cs : List Cmd) :
    ∀ (s : SAnimationSet) (o : Option Bool),
      (∀ v, o = some v →
        hasFlag s.mFlags PROPERTY_FILL_BEFORE_MASK = true ∧ s.mFillBefore = v ∧
          ∀ a ∈ s.mAnimations, a.mFillBefore = v) →
      ∀ v, cs.foldl (fun acc c => match c with | Cmd.setFillB x => some x | _ => acc) o = some v →
        hasFlag (s.run cs).mFlags PROPERTY_FILL_BEFORE_MASK = true ∧
          (s.run cs).mFillBefore = v ∧
          ∀ a ∈ (s.run cs).mAnimations, a.mFillBefore = v := by
  induction cs with
  | nil =>
    intro s o hinv v hv
    exact hinv v hv
  | cons c cs ih =>
    intro s o hinv v hv
    refine ih (s.applyCmd c)
      ((fun acc c => match c with | Cmd.setFillB x => some x | _ => acc) o c) ?_ v hv
    cases c with
    | setFillB x =>
      intro v' hv'
      have hv2 : some x = some v' := hv'
      injection hv2 with he
      subst he
      refine ⟨?_, rfl, ?_⟩
      · show hasFlag (s.mFlags ||| PROPERTY_FILL_BEFORE_MASK) PROPERTY_FILL_BEFORE_MASK = true
        exact hasFlag_lor_self _ _ (by decide)
      · intro a ha
        obtain ⟨b, hb, rfl⟩ := List.mem_map.mp ha
        rfl
    | setDur x =>
      intro v' hv'
      obtain ⟨hf, hval, hall⟩ := hinv v' hv'
      refine ⟨?_, hval, ?_⟩
      · show hasFlag (s.mFlags ||| PROPERTY_DURATION_MASK) PROPERTY_FILL_BEFORE_MASK = true
        rw [hasFlag_lor_other _ _ _ (by decide)]
        exact hf
      · intro a ha
        obtain ⟨b, hb, rfl⟩ := List.mem_map.mp ha
        show b.mFillBefore = v'
        exact hall b hb
    | setFillA x =>
      intro v' hv'
      obtain ⟨hf, hval, hall⟩ := hinv v' hv'
      refine ⟨?_, hval, ?_⟩
      · show hasFlag (s.mFlags ||| PROPERTY_FILL_AFTER_MASK) PROPERTY_FILL_BEFORE_MASK = true
        rw [hasFlag_lor_other _ _ _ (by decide)]
        exact hf
      · intro a ha
        obtain ⟨b, hb, rfl⟩ := List.mem_map.mp ha
        show b.mFillBefore = v'
        exact hall b hb
    | setRep x =>
      intro v' hv'
      obtain ⟨hf, hval, hall⟩ := hinv v' hv'
      refine ⟨?_, hval, ?_⟩
      · show hasFlag (s.mFlags ||| PROPERTY_REPEAT_MODE_MASK) PROPERTY_FILL_BEFORE_MASK = true
        rw [hasFlag_lor_other _ _ _ (by decide)]
        exact hf
      · intro a ha
        obtain ⟨b, hb, rfl⟩ := List.mem_map.mp ha
        show b.mFillBefore = v'
        exact hall b hb
    | add x =>
      intro v' hv'
      obtain ⟨hf, hval, hall⟩ := hinv v' hv'
      refine ⟨hf, hval, ?_⟩
      intro a ha
      have ha2 : a ∈ s.mAnimations ++ [s.pushExplicit x] := ha
      rcases List.mem_append.mp ha2 with h | h
      · exact hall a h
      · have hx : a = s.pushExplicit x := by simpa using h
        rw [hx, pushExplicit_mFillBefore s x hf]
        exact hval

lemma run_fillA (cs : List Cmd) :
    ∀ (s : SAnimationSet) (o : Option Bool),
      (∀ v, o = some v →
        hasFlag s.mFlags PROPERTY_FILL_AFTER_MASK = true ∧ s.mFillAfter = v ∧
          ∀ a ∈ s.mAnimations, a.mFillAfter = v) →
      ∀ v, cs.foldl (fun acc c => match c with | Cmd.setFillA x => some x | _ => acc) o = some v →
        hasFlag (s.run cs).mFlags PROPERTY_FILL_AFTER_MASK = true ∧
          (s.run cs).mFillAfter = v ∧
          ∀ a ∈ (s.run cs).mAnimations, a.mFillAfter = v := by
  induction cs with
  | nil =>
    intro s o hinv v hv
    exact hinv v hv
  | cons c cs ih =>
    intro s o hinv v hv
    refine ih (s.applyCmd c)
      ((fun acc c => match c with | Cmd.setFillA x => some x | _ => acc) o c) ?_ v hv
    cases c with
    | setFillA x =>
      intro v' hv'
      have hv2 : some x = some v' := hv'
      injection hv2 with he
      subst he
      refine ⟨?_, rfl, ?_⟩
      · show hasFlag (s.mFlags ||| PROPERTY_FILL_AFTER_MASK) PROPERTY_FILL_AFTER_MASK = true
        exact hasFlag_lor_self _ _ (by decide)
      · intro a ha
        obtain ⟨b, hb, rfl⟩ := List.mem_map.mp ha
        rfl
    | setDur x =>
      intro v' hv'
      obtain ⟨hf, hval, hall⟩ := hinv v' hv'
      refine ⟨?_, hval, ?_⟩
      · show hasFlag (s.mFlags ||| PROPERTY_DURATION_MASK) PROPERTY_FILL_AFTER_MASK = true
        rw [hasFlag_lor_other _ _ _ (by decide)]
        exact hf
      · intro a ha
        obtain ⟨b, hb, rfl⟩ := List.mem_map.mp ha
        show b.mFillAfter = v'
        exact hall b hb
    | setFillB x =>
      intro v' hv'
      obtain ⟨hf, hval, hall⟩ := hinv v' hv'
      refine ⟨?_, hval, ?_⟩
      · show hasFlag (s.mFlags ||| PROPERTY_FILL_BEFORE_MASK) PROPERTY_FILL_AFTER_MASK = true
        rw [hasFlag_lor_other _ _ _ (by decide)]
        exact hf
      · intro a ha
        obtain ⟨b, hb, rfl⟩ := List.mem_map.mp ha
        show b.mFillAfter = v'
        exact hall b hb
    | setRep x =>
      intro v' hv'
      obtain ⟨hf, hval, hall⟩ := hinv v' hv'
      refine ⟨?_, hval, ?_⟩
      · show hasFlag (s.mFlags ||| PROPERTY_REPEAT_MODE_MASK) PROPERTY_FILL_AFTER_MASK = true
        rw [hasFlag_lor_other _ _ _ (by decide)]
        exact hf
      · intro a ha
        obtain ⟨b, hb, rfl⟩ := List.mem_map.mp ha
        show b.mFillAfter = v'
        exact hall b hb
    | add x =>
      intro v' hv'
      obtain ⟨hf, hval, hall⟩ := hinv v' hv'
      refine ⟨hf, hval, ?_⟩
      intro a ha
      have ha2 : a ∈ s.mAnimations ++ [s.pushExplicit x] := ha
      rcases List.mem_append.mp ha2 with h | h
      · exact hall a h
      · have hx : a = s.pushExplicit x := by simpa using h
        rw [hx, pushExplicit_mFillAfter s x hf]
        exact hval

lemma run_rep (cs : List Cmd) :
    ∀ (s : SAnimationSet) (o : Option RepeatMode),
      (∀ v, o = some v →
        hasFlag s.mFlags PROPERTY_REPEAT_MODE_MASK = true ∧ s.mRepeatMode = v ∧
          ∀ a ∈ s.mAnimations, a.mRepeatMode = v) →
      ∀ v, cs.foldl (fun acc c => match c with | Cmd.setRep x => some x | _ => acc) o = some v →
        hasFlag (s.run cs).mFlags PROPERTY_REPEAT_MODE_MASK = true ∧
          (s.run cs).mRepeatMode = v ∧
          ∀ a ∈ (s.run cs).mAnimations, a.mRepeatMode = v := by
  induction cs with
  | nil =>
    intro s o hinv v hv
    exact hinv v hv
  | cons c cs ih =>
    intro s o hinv v hv
    refine ih (s.applyCmd c)
      ((fun acc c => match c with | Cmd.setRep x => some x | _ => acc) o c) ?_ v hv
    cases c with
    | setRep x =>
      intro v' hv'
      have hv2 : some x = some v' := hv'
      injection hv2 with he
      subst he
      refine ⟨?_, rfl, ?_⟩
      · show hasFlag (s.mFlags ||| PROPERTY_REPEAT_MODE_MASK) PROPERTY_REPEAT_MODE_MASK = true
        exact hasFlag_lor_self _ _ (by decide)
      · intro a ha
        obtain ⟨b, hb, rfl⟩ := List.mem_map.mp ha
        rfl
    | setDur x =>
      intro v' hv'
      obtain ⟨hf, hval, hall⟩ := hinv v' hv'
      refine ⟨?_, hval, ?_⟩
      · show hasFlag (s.mFlags ||| PROPERTY_DURATION_MASK) PROPERTY_REPEAT_MODE_MASK = true
        rw [hasFlag_lor_other _ _ _ (by decide)]
        exact hf
      · intro a ha
        obtain ⟨b, hb, rfl⟩ := List.mem_map.mp ha
        show b.mRepeatMode = v'
        exact hall b hb
    | setFillB x =>
      intro v' hv'
      obtain ⟨hf, hval, hall⟩ := hinv v' hv'
      refine ⟨?_, hval, ?_⟩
      · show hasFlag (s.mFlags ||| PROPERTY_FILL_BEFORE_MASK) PROPERTY_REPEAT_MODE_MASK = true
        rw [hasFlag_lor_other _ _ _ (by decide)]
        exact hf
      · intro a ha
        obtain ⟨b, hb, rfl⟩ := List.mem_map.mp ha
        show b.mRepeatMode = v'
        exact hall b hb
    | setFillA x =>
      intro v' hv'
      obtain ⟨hf, hval, hall⟩ := hinv v' hv'
      refine ⟨?_, hval, ?_⟩
      · show hasFlag (s.mFlags ||| PROPERTY_FILL_AFTER_MASK) PROPERTY_REPEAT_MODE_MASK = true
        rw [hasFlag_lor_other _ _ _ (by decide)]
        exact hf
      · intro a ha
        obtain ⟨b, hb, rfl⟩ := List.mem_map.mp ha
        show b.mRepeatMode = v'
        exact hall b hb
    | add x =>
      intro v' hv'
      obtain ⟨hf, hval, hall⟩ := hinv v' hv'
      refine ⟨hf, hval, ?_⟩
      intro a ha
      have ha2 : a ∈ s.mAnimations ++ [s.pushExplicit x] := ha
      rcases List.mem_append.mp ha2 with h | h
      · exact hall a h
      · have hx : a = s.pushExplicit x := by simpa using h
        rw [hx, pushExplicit_mRepeatMode s x hf]
        exact hval

/-- C2: order-independence of property push-down.  For any interleaving of
property setters and member additions starting from a freshly constructed
set, every member present at the end holds, for each property that was
explicitly set, the set's last value for that property (which the set itself
also stores, with the corresponding explicit bit recorded) — regardless of
whether the member was added before or after the setter call. -/
theorem property_pushdown (b : Bool) (cs : List Cmd) :
    (∀ d, lastSetDur cs = some d →
      hasFlag ((SAnimationSet.create b).run cs).mFlags PROPERTY_DURATION_MASK = true ∧
        ((SAnimationSet.create b).run cs).mDuration = d ∧
        ∀ a ∈ ((SAnimationSet.create b).run cs).mAnimations, a.mDuration = d) ∧
    (∀ v, lastSetFillB cs = some v →
      hasFlag ((SAnimationSet.create b).run cs).mFlags PROPERTY_FILL_BEFORE_MASK = true ∧
        ((SAnimationSet.create b).run cs).mFillBefore = v ∧
        ∀ a ∈ ((SAnimationSet.create b).run cs).mAnimations, a.mFillBefore = v) ∧
    (∀ v, lastSetFillA cs = some v →
      hasFlag ((SAnimationSet.create b).run cs).mFlags PROPERTY_FILL_AFTER_MASK = true ∧
        ((SAnimationSet.create b).run cs).mFillAfter = v ∧
        ∀ a ∈ ((SAnimationSet.create b).run cs).mAnimations, a.mFillAfter = v) ∧
    (∀ v, lastSetRep cs = some v →
      hasFlag ((SAnimationSet.create b).run cs).mFlags PROPERTY_REPEAT_MODE_MASK = true ∧
        ((SAnimationSet.create b).run cs).mRepeatMode = v ∧
        ∀ a ∈ ((SAnimationSet.create b).run cs).mAnimations, a.mRepeatMode = v) := by
  refine ⟨?_, ?_, ?_, ?_⟩
  · intro d hd
    exact run_dur cs (SAnimationSet.create b) none (fun d hd => nomatch hd) d hd
  · intro v hv
    exact run_fillB cs (SAnimationSet.create b) none (fun v hv => nomatch hv) v hv
  · intro v hv
    exact run_fillA cs (SAnimationSet.create b) none (fun v hv => nomatch hv) v hv
  · intro v hv
    exact run_rep cs (SAnimationSet.create b) none (fun v hv => nomatch hv) v hv

/-- C2 witness: a member added before `setDuration(1000)` / `setFillAfter(true)`
and a member added afterwards both end up with duration 1000 and fill-after
true. -/
theorem property_pushdown_witness :
    lastSetDur [Cmd.add animX, Cmd.setDur 1000, Cmd.setFillA true, Cmd.add animY]
        = some 1000 ∧
      lastSetFillA [Cmd.add animX, Cmd.setDur 1000, Cmd.setFillA true, Cmd.add animY]
        = some true ∧
      (∀ a ∈ ((SAnimationSet.create true).run
          [Cmd.add animX, Cmd.setDur 1000, Cmd.setFillA true, Cmd.add animY]).mAnimations,
        a.mDuration = 1000) ∧
      ∀ a ∈ ((SAnimationSet.create true).run
          [Cmd.add animX, Cmd.setDur 1000, Cmd.setFillA true, Cmd.add animY]).mAnimations,
        a.mFillAfter = true :=
  ⟨rfl, rfl,
    ((property_pushdown true
        [Cmd.add animX, Cmd.setDur 1000, Cmd.setFillA true, Cmd.add animY]).1 1000 rfl).2.2,
    (((property_pushdown true
        [Cmd.add animX, Cmd.setDur 1000, Cmd.setFillA true, Cmd.add animY]).2.2.1 true rfl)).2.2⟩

lemma compose_id_left (x : STransformation) : compose idT x = x := by
  cases x
  simp [compose, idT]

lemma composeM_true_eq (x y : STransformation) : composeM true x y = compose x y := rfl

lemma composeM_false_eq (x y : STransformation) (hy : y.alpha = 1) :
    composeM false x y = compose x y := by
  simp [composeM, compose, hy]

lemma stepMember_pending (s0 : ℤ) (uA : Bool) (t : ℤ) (acc : STransformation × Bool)
    (a : IAnimation) (h : t - s0 < a.mStartOffset) :
    stepMember s0 uA t acc a = (acc.1, true) := by
  simp only [stepMember, if_pos h]

lemma stepMember_running (uA : Bool) (t : ℤ) (acc : STransformation × Bool) (a : IAnimation)
    (h1 : a.mStartOffset ≤ t) (h2 : t < a.mStartOffset + a.mDuration) :
    stepMember 0 uA t acc a = (composeM uA acc.1 (a.tf t), true) := by
  have hn : ¬ (t - 0 < a.mStartOffset) := by
    rw [sub_zero]
    exact not_lt.mpr h1
  have hg : a.getTransformation (t - 0) = (a.tf t, true) := by
    rw [sub_zero, IAnimation.getTransformation, if_neg (not_lt.mpr h1), if_pos h2]
  simp only [stepMember, if_neg hn, hg, Bool.or_true]

lemma stepMember_ended (s0 : ℤ) (uA : Bool) (t : ℤ) (acc : STransformation × Bool)
    (a : IAnimation) (h1 : a.mStartOffset ≤ t - s0)
    (h2 : a.mStartOffset + a.mDuration ≤ t - s0) :
    stepMember s0 uA t acc a
      = (composeM uA acc.1
          (if a.mFillAfter then a.tf (a.mStartOffset + a.mDuration) else idT), acc.2) := by
  have hp : ¬ (t - s0 < a.mStartOffset) := not_lt.mpr h1
  have hg : a.getTransformation (t - s0)
      = ((if a.mFillAfter then a.tf (a.mStartOffset + a.mDuration) else idT), false) := by
    rw [IAnimation.getTransformation, if_neg (not_lt.mpr h1), if_neg (not_lt.mpr h2)]
  simp only [stepMember, if_neg hp, hg, Bool.or_false]

lemma leaf_inactive (a : IAnimation) (u : ℤ) (h : (a.getTransformation u).2 = false) :
    a.mStartOffset + a.mDuration ≤ u := by
  by_contra hc
  push_neg at hc
  rw [IAnimation.getTransformation] at h
  by_cases h1 : u < a.mStartOffset
  · rw [if_pos h1] at h
    simp at h
  · rw [if_neg h1, if_pos hc] at h
    simp at h

lemma step_snd_false (s0 : ℤ) (uA : Bool) (t : ℤ) (acc : STransformation × Bool)
    (a : IAnimation) (h : (stepMember s0 uA t acc a).2 = false) :
    acc.2 = false ∧ a.mStartOffset ≤ t - s0 ∧ a.mStartOffset + a.mDuration ≤ t - s0 := by
  by_cases hp : t - s0 < a.mStartOffset
  · rw [stepMember_pending _ _ _ _ _ hp] at h
    simp at h
  · have hstep : stepMember s0 uA t acc a
        = (composeM uA acc.1 (a.getTransformation (t - s0)).1,
            acc.2 || (a.getTransformation (t - s0)).2) := by
      simp only [stepMember, if_neg hp]
    rw [hstep] at h
    simp only [Bool.or_eq_false_iff] at h
    exact ⟨h.1, not_lt.mp hp, leaf_inactive a _ h.2⟩

lemma foldl_active_false (s0 : ℤ) (uA : Bool) (t : ℤ) :
    ∀ (l : List IAnimation) (acc : STransformation × Bool),
      (l.foldl (stepMember s0 uA t) acc).2 = false →
      acc.2 = false ∧
        ∀ a ∈ l, a.mStartOffset ≤ t - s0 ∧ a.mStartOffset + a.mDuration ≤ t - s0 := by
  intro l
  induction l with
  | nil =>
    intro acc h
    exact ⟨h, by intro a ha; exact absurd ha (List.not_mem_nil a)⟩
  | cons a l ih =>
    intro acc h
    rw [List.foldl_cons] at h
    obtain ⟨hstep, hrest⟩ := ih (stepMember s0 uA t acc a) h
    obtain ⟨hacc, hr1, hr2⟩ := step_snd_false s0 uA t acc a hstep
    refine ⟨hacc, ?_⟩
    intro x hx
    rcases List.mem_cons.mp hx with hx | hx
    · subst hx
      exact ⟨hr1, hr2⟩
    · exact hrest x hx

lemma foldl_same_step {α β : Type} (f g : α → β → α) :
    ∀ (l : List β) (acc : α), (∀ acc b, b ∈ l → f acc b = g acc b) →
      l.foldl f acc = l.foldl g acc := by
  intro l
  induction l with
  | nil => intro acc _ ; rfl
  | cons b l ih =>
    intro acc h
    rw [List.foldl_cons, List.foldl_cons, h acc b (List.mem_cons_self b l)]
    exact ih _ (fun acc x hx => h acc x (List.mem_cons_of_mem b hx))

/-- C4: once `getTransformation` reports the set finished (every member no
longer active), every later-or-equal call returns the same terminal transform
and the same finished status. -/
theorem finished_idempotent (s : SAnimationSet) (t u : ℤ)
    (hfin : (s.getTransformation t).2 = false) (hle : t ≤ u) :
    s.getTransformation u = s.getTransformation t := by
  rw [SAnimationSet.getTransformation] at hfin
  obtain ⟨-, hall⟩ := foldl_active_false s.mStartOffset s.mHasAlpha t s.mAnimations _ hfin
  rw [SAnimationSet.getTransformation, SAnimationSet.getTransformation]
  apply foldl_same_step
  intro acc a ha
  obtain ⟨h1, h2⟩ := hall a ha
  have h1u : a.mStartOffset ≤ u - s.mStartOffset := by omega
  have h2u : a.mStartOffset + a.mDuration ≤ u - s.mStartOffset := by omega
  rw [stepMember_ended _ _ _ _ _ h1u h2u, stepMember_ended _ _ _ _ _ h1 h2]

/-- C4 witness: for the two-member scenario set, at time 1000 every member has
ended so the call reports finished, and the call at time 2000 returns the
identical transform and status. -/
theorem finished_idempotent_witness :
    ((SAnimationSet.createDefault.addAll [animX, animY]).getTransformation 1000).2 = false ∧
      (1000 : ℤ) ≤ 2000 ∧
      (SAnimationSet.createDefault.addAll [animX, animY]).getTransformation 2000
        = (SAnimationSet.createDefault.addAll [animX, animY]).getTransformation 1000 :=
  ⟨by decide, by decide,
    finished_idempotent (SAnimationSet.createDefault.addAll [animX, animY]) 1000 2000
      (by decide) (by decide)⟩

lemma addAnimation_members (s : SAnimationSet) (a : IAnimation) :
    (s.addAnimation a).mAnimations = s.mAnimations ++ [s.pushExplicit a] := rfl

lemma addAnimation_hasAlpha (s : SAnimationSet) (a : IAnimation) :
    (s.addAnimation a).mHasAlpha = (s.mHasAlpha || a.hasAlphaF) := rfl

/-- C3: members are evaluated and composed in the exact order they were added.
For members A then B, both active at time `t` (and honouring the leaf alpha
contract), the aggregate transform is `compose (A pose) (B pose)` — A's
transform innermost — and, when the two poses do not commute, it differs from
`compose (B pose) (A pose)`. -/
theorem composition_follows_add_order (A B : IAnimation) (t : ℤ)
    (hA1 : A.mStartOffset ≤ t) (hA2 : t < A.mStartOffset + A.mDuration)
    (hB1 : B.mStartOffset ≤ t) (hB2 : t < B.mStartOffset + B.mDuration)
    (hAok : alphaOK A) (hBok : alphaOK B)
    (hnc : compose (A.tf t) (B.tf t) ≠ compose (B.tf t) (A.tf t)) :
    ((SAnimationSet.createDefault.addAll [A, B]).getTransformation t).1
        = compose (A.tf t) (B.tf t) ∧
      ((SAnimationSet.createDefault.addAll [A, B]).getTransformation t).1
        ≠ compose (B.tf t) (A.tf t) := by
  have hpA : SAnimationSet.createDefault.pushExplicit A = A :=
    pushExplicit_of_flags16 _ rfl A
  have hpB : (SAnimationSet.createDefault.addAnimation A).pushExplicit B = B :=
    pushExplicit_of_flags16 _ rfl B
  have hm : (SAnimationSet.createDefault.addAll [A, B]).mAnimations = [A, B] := by
    show ((SAnimationSet.createDefault.addAnimation A).addAnimation B).mAnimations = [A, B]
    rw [addAnimation_members, addAnimation_members, hpA, hpB]
    rfl
  have hso : (SAnimationSet.createDefault.addAll [A, B]).mStartOffset = 0 := rfl
  have hha : (SAnimationSet.createDefault.addAll [A, B]).mHasAlpha
      = (A.hasAlphaF || B.hasAlphaF) := by
    show ((SAnimationSet.createDefault.addAnimation A).addAnimation B).mHasAlpha
      = (A.hasAlphaF || B.hasAlphaF)
    rw [addAnimation_hasAlpha, addAnimation_hasAlpha]
    show ((false || A.hasAlphaF) || B.hasAlphaF) = (A.hasAlphaF || B.hasAlphaF)
    rw [Bool.false_or]
  have key : (SAnimationSet.createDefault.addAll [A, B]).getTransformation t
      = (composeM (A.hasAlphaF || B.hasAlphaF)
          (composeM (A.hasAlphaF || B.hasAlphaF) idT (A.tf t)) (B.tf t), true) := by
    rw [SAnimationSet.getTransformation, hm, hso, hha]
    rw [List.foldl_cons, stepMember_running _ t _ A hA1 hA2]
    rw [List.foldl_cons, stepMember_running _ t _ B hB1 hB2]
    rw [List.foldl_nil]
  have hmain : ((SAnimationSet.createDefault.addAll [A, B]).getTransformation t).1
      = compose (A.tf t) (B.tf t) := by
    rw [key]
    show composeM (A.hasAlphaF || B.hasAlphaF)
        (composeM (A.hasAlphaF || B.hasAlphaF) idT (A.tf t)) (B.tf t)
      = compose (A.tf t) (B.tf t)
    cases hor : (A.hasAlphaF || B.hasAlphaF) with
    | true =>
      rw [composeM_true_eq, composeM_true_eq, compose_id_left]
    | false =>
      obtain ⟨hA0, hB0⟩ := Bool.or_eq_false_iff.mp hor
      rw [composeM_false_eq _ _ (hAok hA0 t), compose_id_left,
        composeM_false_eq _ _ (hBok hB0 t)]
  exact ⟨hmain, by rw [hmain]; exact hnc⟩

/-- C3 witness: member A translates x by one, member B scales x by two; at
time 150 both are active and translate-then-scale differs from
scale-then-translate. -/
theorem composition_follows_add_order_witness :
    animX.mStartOffset ≤ (150 : ℤ) ∧ (150 : ℤ) < animX.mStartOffset + animX.mDuration ∧
      animY.mStartOffset ≤ (150 : ℤ) ∧ (150 : ℤ) < animY.mStartOffset + animY.mDuration ∧
      compose (animX.tf 150) (animY.tf 150) ≠ compose (animY.tf 150) (animX.tf 150) ∧
      ((SAnimationSet.createDefault.addAll [animX, animY]).getTransformation 150).1
        = compose (animX.tf 150) (animY.tf 150) ∧
      ((SAnimationSet.createDefault.addAll [animX, animY]).getTransformation 150).1
        ≠ compose (animY.tf 150) (animX.tf 150) := by
  refine ⟨by decide, by decide, by decide, by decide, by decide, ?_, ?_⟩
  · exact (composition_follows_add_order animX animY 150 (by decide) (by decide) (by decide)
      (by decide) (fun _ _ => rfl) (fun _ _ => rfl) (by decide)).1
  · exact (composition_follows_add_order animX animY 150 (by decide) (by decide) (by decide)
      (by decide) (fun _ _ => rfl) (fun _ _ => rfl) (by decide)).2

lemma foldl_all_pending (s0 : ℤ) (uA : Bool) (t : ℤ) :
    ∀ (l : List IAnimation) (T : STransformation) (b : Bool),
      (∀ a ∈ l, t - s0 < a.mStartOffset) → l ≠ [] →
      l.foldl (stepMember s0 uA t) (T, b) = (T, true) := by
  intro l
  induction l with
  | nil =>
    intro T b _ hne
    exact absurd rfl hne
  | cons a l ih =>
    intro T b hall _
    rw [List.foldl_cons, stepMember_pending _ _ _ _ _ (hall a (List.mem_cons_self a l))]
    cases l with
    | nil => rfl
    | cons c cl =>
      exact ih T true (fun x hx => hall x (List.mem_cons_of_mem a hx)) (List.cons_ne_nil c cl)

/-- C8: calling `getTransformation` before the set's resolved start is not an
error — with a non-empty member list and non-negative member offsets, no
member is treated as active, the composed output is the identity transform,
and the call reports still active (pending). -/
theorem before_start_pending (s : SAnimationSet) (t : ℤ)
    (h1 : s.mAnimations ≠ []) (h2 : ∀ a ∈ s.mAnimations, 0 ≤ a.mStartOffset)
    (h3 : t < s.mStartOffset) :
    s.getTransformation t = (idT, true) := by
  rw [SAnimationSet.getTransformation]
  apply foldl_all_pending
  · intro a ha
    have := h2 a ha
    omega
  · exact h1

/-- C8 witness: a set with start offset 100 and one member, queried at time
50, returns the identity transform and reports still active. -/
theorem before_start_pending_witness :
    ((SAnimationSet.createDefault.setStartOffset 100).addAll [animX]).mAnimations ≠ [] ∧
      (∀ a ∈ ((SAnimationSet.createDefault.setStartOffset 100).addAll [animX]).mAnimations,
        0 ≤ a.mStartOffset) ∧
      (50 : ℤ) < ((SAnimationSet.createDefault.setStartOffset 100).addAll [animX]).mStartOffset ∧
      ((SAnimationSet.createDefault.setStartOffset 100).addAll [animX]).getTransformation 50
        = (idT, true) := by
  have hm : ((SAnimationSet.createDefault.setStartOffset 100).addAll [animX]).mAnimations
      = [animX] := rfl
  have h1 : ((SAnimationSet.createDefault.setStartOffset 100).addAll [animX]).mAnimations
      ≠ [] := by
    rw [hm]
    exact List.cons_ne_nil _ _
  have h2 : ∀ a ∈ ((SAnimationSet.createDefault.setStartOffset 100).addAll [animX]).mAnimations,
      0 ≤ a.mStartOffset := by
    rw [hm]
    intro a ha
    rcases List.mem_cons.mp ha with h | h
    · subst h
      decide
    · exact absurd h (List.not_mem_nil a)
  have h3 : (50 : ℤ)
      < ((SAnimationSet.createDefault.setStartOffset 100).addAll [animX]).mStartOffset := by
    decide
  exact ⟨h1, h2, h3, before_start_pending _ 50 h1 h2 h3⟩
